import Mathlib

/-!
Shallow embedding of `pynndescent/utils.py`: the tau random number
generator, rejection sampling, the per-point bounded max-heap
(`make_heap`, `heap_push`, `deheap_sort`, `smallest_flagged`) and the
candidate graph builder (`build_candidates`).

Weights (`f8` in the source) are modelled as `WithTop ℚ`, with `⊤`
playing the role of `np.inf`; only order comparisons are performed on
weights in the modelled code paths.  The three `int64` words of the rng
state are modelled by their unsigned 64-bit representatives (`Nat`
values below `2^64`), with two's complement arithmetic made explicit.
-/

/-- Weight type: rationals extended with a top element standing for `np.inf`. -/
abbrev W : Type := WithTop ℚ

/-- Strict comparison on weights as a boolean, by cases on the top element;
used to give `W` comparison instances that evaluate by kernel reduction. -/
def wltb : Option ℚ → Option ℚ → Bool
  | none, _ => false
  | some _, none => true
  | some a, some b => a.blt b

/-- Non-strict boolean comparison on weights. -/
def wleb (a b : Option ℚ) : Bool := ! wltb b a

/-- Proof that `wltb` decides the strict order of `W`. -/
def wltbIff (a b : W) : wltb a b = true ↔ a < b := by
  cases a with
  | none =>
    exact iff_of_false (by simp [wltb]) (WithTop.not_top_lt b)
  | some x =>
    cases b with
    | none => exact iff_of_true rfl (WithTop.coe_lt_top x)
    | some y =>
      have h : (x.blt y = true) ↔ x < y := Iff.rfl
      exact h.trans (WithTop.coe_lt_coe (a := x) (b := y)).symm

/-- Proof that `wleb` decides the order of `W`. -/
def wlebIff (a b : W) : wleb a b = true ↔ a ≤ b := by
  rw [wleb, Bool.not_eq_true']
  rw [← Bool.not_eq_true (wltb b a)]
  rw [not_iff_comm, wltbIff b a]
  exact not_le

instance (priority := 2000) wDecEq : DecidableEq W :=
  inferInstanceAs (DecidableEq (Option ℚ))

instance (priority := 2000) wDecLT : ∀ a b : W, Decidable (a < b) := fun a b =>
  decidable_of_iff (wltb a b = true) (wltbIff a b)

instance (priority := 2000) wDecLE : ∀ a b : W, Decidable (a ≤ b) := fun a b =>
  decidable_of_iff (wleb a b = true) (wlebIff a b)

/-- One slot of a neighbor-heap row: parallel entries of `heap[0]` (index),
`heap[1]` (weight) and `heap[2]` (is-new flag) at one position. -/
structure Slot where
  index : Int
  weight : W
  flag : Bool
deriving DecidableEq, Repr

/-- The value a freshly allocated slot holds after `make_heap`:
index `-1`, weight `np.inf`, flag `0`. -/
def defaultSlot : Slot := ⟨-1, ⊤, false⟩

instance : Inhabited Slot := ⟨defaultSlot⟩

/-- Slot read with sentinel default, on one row. -/
def sAt (l : List Slot) (i : Nat) : Slot := l.getD i defaultSlot


/-- The three `int64` state words of the tau rng (`rng_state` in the source),
each stored as its unsigned 64-bit representative. -/
structure RngState where
  s0 : Nat
  s1 : Nat
  s2 : Nat
deriving DecidableEq, Repr

/-- The modulus `2^64` of the 64-bit words. -/
def U64 : Nat := 18446744073709551616

/-- The sign threshold `2^63` of an `int64`. -/
def I64SIGN : Nat := 9223372036854775808

/-- Signed value of an unsigned 64-bit representative (two's complement). -/
def int64OfU (u : Nat) : Int := if u < I64SIGN then (u : Int) else (u : Int) - (U64 : Int)

/-- Unsigned 64-bit representative of an integer (reduction mod `2^64`). -/
def u64OfInt (x : Int) : Nat := (x % (U64 : Int)).toNat

/-- Left shift of an `int64` (wraps around mod `2^64`, as numba's fixed-width ints do). -/
def shl64 (x k : Nat) : Nat := (x <<< k) % U64

/-- Arithmetic right shift of an `int64`: floor division of the signed value by `2^k`. -/
def asr64 (x k : Nat) : Nat := u64OfInt (Int.fdiv (int64OfU x) ((2 : Int) ^ k))

/-- Signed `int32` value of the low 32 bits of an unsigned representative,
modelling the `i4` return conversion of `tau_rand_int`. -/
def int32OfU (u : Nat) : Int :=
  let m := u % 4294967296
  if m < 2147483648 then (m : Int) else (m : Int) - 4294967296

/-- Model of `tau_rand_int(state)`: three xorshift rounds on the state words,
returning the xor of the updated words as a signed `int32`, together with the
updated state (the source mutates `state` in place). -/
def tau_rand_int (s : RngState) : Int × RngState :=
  let n0 := (shl64 (s.s0 &&& 4294967294) 12 &&& 4294967295) ^^^
            asr64 ((shl64 s.s0 13 &&& 4294967295) ^^^ s.s0) 19
  let n1 := (shl64 (s.s1 &&& 4294967288) 4 &&& 4294967295) ^^^
            asr64 ((shl64 s.s1 2 &&& 4294967295) ^^^ s.s1) 25
  let n2 := (shl64 (s.s2 &&& 4294967280) 17 &&& 4294967295) ^^^
            asr64 ((shl64 s.s2 3 &&& 4294967295) ^^^ s.s2) 11
  (int32OfU (n0 ^^^ n1 ^^^ n2), ⟨n0, n1, n2⟩)

/-- Model of `tau_rand(state)`: the signed 32-bit draw divided by `0x7fffffff`
(the float division is modelled exactly, over `ℚ`). -/
def tau_rand (s : RngState) : ℚ × RngState :=
  let r := tau_rand_int s
  (Rat.divInt r.1 2147483647, r.2)

/-- Outputs of `n` successive `tau_rand_int` draws together with the final
state, modelling repeated calls on one mutable `rng_state`. -/
def tauRandIntSeq (s : RngState) : Nat → List Int × RngState
  | 0 => ([], s)
  | n + 1 =>
    let r := tau_rand_int s
    let rest := tauRandIntSeq r.2 n
    (r.1 :: rest.1, rest.2)

/-- Outputs of `n` successive `tau_rand` draws together with the final state. -/
def tauRandSeq (s : RngState) : Nat → List ℚ × RngState
  | 0 => ([], s)
  | n + 1 =>
    let r := tau_rand s
    let rest := tauRandSeq r.2 n
    (r.1 :: rest.1, rest.2)

/-- Inner acceptance loop of `rejection_sample`: repeatedly draw
`tau_rand_int(rng_state) % pool_size` until the draw is not in `acc`
(the values accepted so far).  The unbounded `while reject_sample` loop is
given an explicit fuel; `none` means the fuel was exhausted. -/
def drawFresh (poolSize : Nat) (acc : List Int) (s : RngState) : Nat → Option (Int × RngState)
  | 0 => none
  | fuel + 1 =>
    let r := tau_rand_int s
    let j := r.1 % (poolSize : Int)
    if j ∈ acc then drawFresh poolSize acc r.2 fuel else some (j, r.2)

/-- Outer loop of `rejection_sample`: accept `need` further values (`acc` holds
the already accepted ones, most recent first). -/
def rejectionSampleAux (poolSize : Nat) (fuel : Nat) :
    Nat → List Int → RngState → Option (List Int × RngState)
  | 0, acc, s => some (acc.reverse, s)
  | need + 1, acc, s =>
    match drawFresh poolSize acc s fuel with
    | none => none
    | some (j, s') => rejectionSampleAux poolSize fuel need (j :: acc) s'

/-- Model of `rejection_sample(n_samples, pool_size, rng_state)`, with an
explicit fuel bound on each acceptance loop (`none` models non-termination
within the given fuel). -/
def rejection_sample (nSamples poolSize : Nat) (s : RngState) (fuel : Nat) :
    Option (List Int × RngState) :=
  rejectionSampleAux poolSize fuel nSamples [] s

/-- The integers `0, 1, ..., n-1` as a list of `Int` values. -/
def intRange (n : Nat) : List Int := (List.range n).map Int.ofNat

/-- A neighbor heap: one row of slots per data point. -/
abbrev Heap : Type := List (List Slot)

/-- Model of `make_heap(n_points, size)`: every index `-1`, every weight
`np.inf`, every flag `0`. -/
def make_heap (nPoints size : Nat) : Heap :=
  List.replicate nPoints (List.replicate size defaultSlot)

/-- The sift-down loop of `heap_push` (lines 181-212 of the source), in hole
form: the element `x` displaced from the root is carried along, each step
copies the larger in-range child of hole `i` up into `i` and descends, and on
exit `x` is written at the final hole.  The initial write of `x` at position 0
in the source is always overwritten before being read, so it is omitted.
Fuel bounds the loop; `heap_push` passes the row length, which suffices since
the hole index strictly increases. -/
def siftDown (x : Slot) : List Slot → Nat → Nat → List Slot
  | l, i, 0 => l.set i x
  | l, i, fuel + 1 =>
    let ic1 := 2 * i + 1
    let ic2 := 2 * i + 2
    if ic1 ≥ l.length then l.set i x
    else if ic2 ≥ l.length then
      if x.weight < (sAt l ic1).weight then
        siftDown x (l.set i (sAt l ic1)) ic1 fuel
      else l.set i x
    else if (sAt l ic2).weight ≤ (sAt l ic1).weight then
      if x.weight < (sAt l ic1).weight then
        siftDown x (l.set i (sAt l ic1)) ic1 fuel
      else l.set i x
    else
      if x.weight < (sAt l ic2).weight then
        siftDown x (l.set i (sAt l ic2)) ic2 fuel
      else l.set i x

/-- Model of `heap_push(heap, row, weight, index, flag)` acting on one row:
reject if the weight strictly exceeds the root weight, reject if the index is
already present anywhere in the row, otherwise replace the root and sift down.
Returns the `{0,1}` success count and the updated row. -/
def heap_push (l : List Slot) (weight : W) (index : Int) (flag : Bool) : Nat × List Slot :=
  if (sAt l 0).weight < weight then (0, l)
  else if index ∈ l.map Slot.index then (0, l)
  else (1, siftDown ⟨index, weight, flag⟩ l 0 l.length)

/-- The push operation lifted to a whole heap with a row number. -/
def heapPushAt (h : Heap) (row : Nat) (weight : W) (index : Int) (flag : Bool) : Nat × Heap :=
  let r := heap_push (h.getD row []) weight index flag
  (r.1, h.set row r.2)

/-- One requested push operation: target row, weight, index and flag. -/
structure PushOp where
  row : Nat
  w : W
  idx : Int
  flag : Bool
deriving DecidableEq, Repr

/-- Apply a sequence of `heap_push` calls to a heap. -/
def applyPushes (h : Heap) (ops : List PushOp) : Heap :=
  ops.foldl (fun h op => (heapPushAt h op.row op.w op.idx op.flag).2) h

/-- Max-heap property of one row, exactly as the spec states it:
`weight[parent] >= weight[child]` for every child position in range. -/
def HeapProp (l : List Slot) : Prop :=
  ∀ i < l.length, ∀ c < l.length, (c = 2 * i + 1 ∨ c = 2 * i + 2) →
    (sAt l c).weight ≤ (sAt l i).weight

instance : DecidablePred HeapProp := fun l =>
  inferInstanceAs (Decidable (∀ i < l.length, ∀ c < l.length, (c = 2 * i + 1 ∨ c = 2 * i + 2) →
    (sAt l c).weight ≤ (sAt l i).weight))

/-- No two slots of the row share the same non-sentinel index value. -/
def NoDupIdx (l : List Slot) : Prop :=
  ((l.map Slot.index).filter (fun x => x ≠ -1)).Nodup

instance : DecidablePred NoDupIdx := fun l =>
  inferInstanceAs (Decidable (((l.map Slot.index).filter (fun x : Int => x ≠ -1)).Nodup))

/-- Swap of the entries at two positions (indices and weights are swapped
together in `deheap_sort`, so the row element here is an `(index, weight)`
pair). -/
def swapPos (l : List (Int × W)) (i j : Nat) : List (Int × W) :=
  (l.set i (l.getD j (-1, ⊤))).set j (l.getD i (-1, ⊤))

/-- Inner sift loop of `deheap_sort` (lines 246-266 of the source): `b` is the
value the shrunk `heap_end` holds after the decrement, and children are
considered only strictly below `b`, exactly as in the code. -/
def deheapSift (l : List (Int × W)) (root b : Nat) : Nat → List (Int × W)
  | 0 => l
  | fuel + 1 =>
    if 2 * root + 1 < b then
      let lc := 2 * root + 1
      let rc := lc + 1
      let sw := if (l.getD root (-1, ⊤)).2 < (l.getD lc (-1, ⊤)).2 then lc else root
      let sw2 := if rc < b ∧ (l.getD sw (-1, ⊤)).2 < (l.getD rc (-1, ⊤)).2 then rc else sw
      if sw2 = root then l
      else deheapSift (swapPos l root sw2) sw2 b fuel
    else l

/-- One iteration of the outer `deheap_sort` loop at `heap_end = he`:
swap positions `0` and `he`, then sift the new root with the decremented
bound `he - 1`. -/
def deheapStep (l : List (Int × W)) (he : Nat) : List (Int × W) :=
  deheapSift (swapPos l 0 he) 0 (he - 1) l.length

/-- The outer `deheap_sort` loop, running `heap_end = k-1, k-2, ..., 0`. -/
def deheapRun (l : List (Int × W)) : Nat → List (Int × W)
  | 0 => l
  | k + 1 => deheapRun (deheapStep l k) k

/-- Model of `deheap_sort` on one row of `(index, weight)` pairs: the second
phase of heap sort as written in the source. -/
def deheap_sort_row (l : List (Int × W)) : List (Int × W) :=
  deheapRun l l.length

/-- Model of `deheap_sort(heap)`: per-row heap-sort extraction of the index
and weight fields. -/
def deheap_sort (h : Heap) : List (List (Int × W)) :=
  h.map (fun row => deheap_sort_row (row.map (fun s => (s.index, s.weight))))

/-- A row of pairs is ascending by weight: each entry's weight is at most the
next entry's weight. -/
def AscendingW : List (Int × W) → Prop
  | a :: b :: rest => a.2 ≤ b.2 ∧ AscendingW (b :: rest)
  | _ => True

/-- Decision procedure for `AscendingW` by structural recursion. -/
def ascendingWDecAux : (l : List (Int × W)) → Decidable (AscendingW l)
  | [] => isTrue trivial
  | [_] => isTrue trivial
  | a :: b :: rest =>
    @instDecidableAnd (a.2 ≤ b.2) (AscendingW (b :: rest)) inferInstance
      (ascendingWDecAux (b :: rest))

instance : DecidablePred AscendingW := ascendingWDecAux

/-- The scan loop of `smallest_flagged`: walk the row keeping the running
minimum distance and the position of the best flagged slot seen so far
(`none` models the initial `result_index = -1`). -/
def sfScan : List Slot → Nat → W → Option Nat → Option Nat
  | [], _, _, acc => acc
  | s :: rest, i, minDist, acc =>
    if s.flag = true ∧ s.weight < minDist then sfScan rest (i + 1) s.weight (some i)
    else sfScan rest (i + 1) minDist acc

/-- Model of `smallest_flagged(heap, row)`: scan for the flagged slot of
minimum weight; if one is found clear its flag and return its stored index,
otherwise return `-1` with no mutation. -/
def smallest_flagged (h : Heap) (row : Nat) : Int × Heap :=
  let l := h.getD row []
  match sfScan l 0 ⊤ none with
  | some p =>
    ((sAt l p).index,
      h.set row (l.set p { sAt l p with flag := false }))
  | none => (-1, h)

/-- Read the slot of `h` at row `p.1`, position `p.2` (out-of-range reads give
the sentinel slot, as only in-range slots are ever read by the modelled code). -/
def readSlot (h : Heap) (p : Nat × Nat) : Slot :=
  (h.getD p.1 []).getD p.2 defaultSlot

/-- Clear the is-new flag of the slot at row `i`, position `j`
(`current_graph[2, i, j] = 0` in the source). -/
def clearFlag (h : Heap) (i j : Nat) : Heap :=
  let row := h.getD i []
  h.set i (row.set j { row.getD j defaultSlot with flag := false })

/-- The state threaded through the `build_candidates` loops: the candidate
heap being filled, the input graph (whose flags are being cleared) and the
rng state. -/
structure BCState where
  cand : Heap
  graph : Heap
  rng : RngState

/-- The body of the inner `build_candidates` loop at slot `(i, j)`:
skip empty slots, otherwise draw one random priority, push the edge into the
candidate heap in both directions and clear the slot's is-new flag. -/
def bcSlot (p : Nat × Nat) (st : BCState) : BCState :=
  let s := readSlot st.graph p
  if s.index < 0 then st
  else
    let r := tau_rand st.rng
    let d : W := ((r.1 : ℚ) : W)
    let c1 := (heapPushAt st.cand p.1 d s.index s.flag).2
    let c2 := (heapPushAt c1 s.index.toNat d (p.1 : Int) s.flag).2
    ⟨c2, clearFlag st.graph p.1 p.2, r.2⟩

/-- Row-major list of the slot positions visited by the `build_candidates`
loops. -/
def slotList (nVertices nNeighbors : Nat) : List (Nat × Nat) :=
  (List.range nVertices).flatMap (fun i => (List.range nNeighbors).map (fun j => (i, j)))

/-- Model of `build_candidates(current_graph, n_vertices, n_neighbors,
max_candidates, rng_state)`: fold the slot body over all slots in row-major
order, starting from a fresh candidate heap. -/
def build_candidates (graph : Heap) (nVertices nNeighbors maxCandidates : Nat)
    (rng : RngState) : BCState :=
  (slotList nVertices nNeighbors).foldl (fun st p => bcSlot p st)
    ⟨make_heap nVertices maxCandidates, graph, rng⟩

/-- The two push attempts generated by one valid graph slot `(i, j)` holding
neighbor `s.index` with flag `s.flag` and drawn priority `d`:
`(row i, d, nb, f)` and `(row nb, d, i, f)`. -/
def attemptsFor (p : Nat × Nat) (s : Slot) (d : W) : List PushOp :=
  [⟨p.1, d, s.index, s.flag⟩, ⟨s.index.toNat, d, (p.1 : Int), s.flag⟩]

/-- The trace of push attempts `build_candidates` makes over a list of slot
positions, reading the original graph: per valid slot, one random priority is
drawn and exactly the two symmetric attempts of `attemptsFor` are emitted. -/
def candAttemptsAux (graph : Heap) : List (Nat × Nat) → RngState → List PushOp × RngState
  | [], rng => ([], rng)
  | p :: ps, rng =>
    let s := readSlot graph p
    if s.index < 0 then candAttemptsAux graph ps rng
    else
      let r := tau_rand rng
      let rest := candAttemptsAux graph ps r.2
      (attemptsFor p s ((r.1 : ℚ) : W) ++ rest.1, rest.2)

/-- The full push-attempt trace of `build_candidates`. -/
def candAttempts (graph : Heap) (nVertices nNeighbors : Nat) (rng : RngState) :
    List PushOp × RngState :=
  candAttemptsAux graph (slotList nVertices nNeighbors) rng

/-- Fold a list of push attempts into a heap. -/
def foldPushes (h : Heap) (ops : List PushOp) : Heap :=
  applyPushes h ops

theorem sAt_set_eq (l : List Slot) (i : Nat) (x : Slot) (h : i < l.length) :
    sAt (l.set i x) i = x := by
  simp [sAt, List.getD, List.getElem?_set_self, h]

theorem sAt_set_ne (l : List Slot) (i j : Nat) (x : Slot) (h : i ≠ j) :
    sAt (l.set i x) j = sAt l j := by
  simp [sAt, List.getD, List.getElem?_set_ne h]

theorem sAt_oob (l : List Slot) (i : Nat) (h : l.length ≤ i) :
    sAt l i = defaultSlot := by
  simp [sAt, List.getD, List.getElem?_eq_none h]

theorem set_perm (l : List Slot) (i : Nat) (x : Slot) (h : i < l.length) :
    (l.set i x).Perm (x :: l.eraseIdx i) := by
  induction l generalizing i with
  | nil => simp at h
  | cons a t ih =>
    cases i with
    | zero => exact List.Perm.refl _
    | succ n =>
      have hn : n < t.length := by simpa using h
      exact ((ih n hn).cons a).trans (List.Perm.swap x a _)

theorem cons_eraseIdx_perm (l : List Slot) (i : Nat) (h : i < l.length) :
    l.Perm (sAt l i :: l.eraseIdx i) := by
  induction l generalizing i with
  | nil => simp at h
  | cons a t ih =>
    cases i with
    | zero => exact List.Perm.refl _
    | succ n =>
      have hn : n < t.length := by simpa using h
      have h1 : sAt (a :: t) (n + 1) = sAt t n := by simp [sAt, List.getD]
      rw [h1]
      exact ((ih n hn).cons a).trans (List.Perm.swap _ a _)


/-- Rejection behaviour of `heap_push` as the code implements it: the push is
refused, with the row left untouched, when the new weight is strictly greater
than the root weight or when the index is already present in the row. -/
theorem heap_push_reject (l : List Slot) (w : W) (idx : Int) (f : Bool)
    (h : (sAt l 0).weight < w ∨ idx ∈ l.map Slot.index) :
    heap_push l w idx f = (0, l) := by
  unfold heap_push
  rcases h with h | h
  · rw [if_pos h]
  · by_cases h1 : (sAt l 0).weight < w
    · rw [if_pos h1]
    · rw [if_neg h1, if_pos h]

/-- C2: the claim as stated is false: the code compares with strict `>`
(`weight > weights[0]`), so a push whose weight equals the row maximum and
whose index is fresh is accepted and mutates the row.  Concretely, the
one-slot row `[(index 0, weight 1)]` (reachable by pushing weight 1 into a
fresh row) accepts a push of weight `1 >= weight[row][0]` with index 5 and
returns 1, replacing the slot. -/
theorem heap_push_equal_weight_inserts :
    (sAt [⟨0, ((1 : ℚ) : W), false⟩] 0).weight ≤ ((1 : ℚ) : W) ∧
    heap_push [⟨0, ((1 : ℚ) : W), false⟩] ((1 : ℚ) : W) 5 false =
      (1, [⟨5, ((1 : ℚ) : W), false⟩]) ∧
    heap_push [⟨0, ((1 : ℚ) : W), false⟩] ((1 : ℚ) : W) 5 false ≠
      (0, [⟨0, ((1 : ℚ) : W), false⟩]) := by decide

/-- C2 (amended): `heap_push(heap, row, w, idx, flag)` returns 0 and leaves
the entire row unchanged whenever `w > weight[row][0]` (strictly greater than
the current row maximum at the root) or `idx` is already present anywhere in
the row. -/
theorem heap_push_rejects_strict_or_duplicate (l : List Slot) (w : W) (idx : Int) (f : Bool)
    (h : (sAt l 0).weight < w ∨ idx ∈ l.map Slot.index) :
    heap_push l w idx f = (0, l) :=
  heap_push_reject l w idx f h

/-- Witness for the amended C2 at a concrete input: weight 7 against root
weight 1 is rejected and the row is returned unchanged. -/
theorem heap_push_rejects_strict_or_duplicate_witness :
    heap_push [⟨0, ((1 : ℚ) : W), false⟩] ((7 : ℚ) : W) 5 false =
      (0, [⟨0, ((1 : ℚ) : W), false⟩]) :=
  heap_push_rejects_strict_or_duplicate [⟨0, ((1 : ℚ) : W), false⟩] ((7 : ℚ) : W) 5 false
    (Or.inl (by decide))

/-- C10: if a row still contains an empty slot (sentinel index `-1`), then
pushing with index `-1` is rejected with return value 0 and no mutation, for
every weight and flag: the duplicate-index scan also matches sentinel
entries. -/
theorem heap_push_sentinel_index_rejected (l : List Slot) (w : W) (f : Bool)
    (h : (-1 : Int) ∈ l.map Slot.index) :
    heap_push l w (-1) f = (0, l) :=
  heap_push_reject l w (-1) f (Or.inr h)

/-- Witness for C10: pushing index `-1` into a freshly allocated one-slot row
is rejected even though its weight improves on the root. -/
theorem heap_push_sentinel_index_rejected_witness :
    heap_push (List.replicate 1 defaultSlot) ((0 : ℚ) : W) (-1) true =
      (0, List.replicate 1 defaultSlot) :=
  heap_push_sentinel_index_rejected (List.replicate 1 defaultSlot) ((0 : ℚ) : W) true
    (by decide)

/-- C8: `tau_rand_int` and `tau_rand` are pure functions of the rng state:
two states holding the same three word values produce identical output
sequences and identical final states for any number of calls. -/
theorem tau_rand_pure_function_of_state (s t : RngState)
    (h0 : s.s0 = t.s0) (h1 : s.s1 = t.s1) (h2 : s.s2 = t.s2) (n : Nat) :
    tauRandIntSeq s n = tauRandIntSeq t n ∧ tauRandSeq s n = tauRandSeq t n := by
  obtain ⟨a, b, c⟩ := s
  obtain ⟨a2, b2, c2⟩ := t
  cases h0
  cases h1
  cases h2
  exact ⟨rfl, rfl⟩

/-- Witness for C8 at a concrete state and three draws. -/
theorem tau_rand_pure_function_of_state_witness :
    tauRandIntSeq ⟨123, 456, 789⟩ 3 = tauRandIntSeq ⟨123, 456, 789⟩ 3 ∧
    tauRandSeq ⟨123, 456, 789⟩ 3 = tauRandSeq ⟨123, 456, 789⟩ 3 :=
  tau_rand_pure_function_of_state ⟨123, 456, 789⟩ ⟨123, 456, 789⟩ rfl rfl rfl 3

/-- C9: `tau_rand` returns exactly the signed 32-bit draw of `tau_rand_int`
divided by `0x7fffffff` (the division modelled exactly over `ℚ`), and for
some state the result is negative, i.e. outside `[0, 1]`: the function does
not clamp. -/
theorem tau_rand_is_div_and_can_be_negative :
    (∀ s : RngState, (tau_rand s).1 = ((tau_rand_int s).1 : ℚ) / (2147483647 : ℚ)) ∧
    ∃ s : RngState, (tau_rand s).1 < 0 := by
  constructor
  · intro s
    rw [show (tau_rand s).1 = Rat.divInt (tau_rand_int s).1 2147483647 from rfl]
    rw [Rat.divInt_eq_div]
    norm_num
  · refine ⟨⟨0, 0, 16384⟩, ?_⟩
    have h : (tau_rand ⟨0, 0, 16384⟩).1 = Rat.divInt (-2147483576) 2147483647 := by decide
    rw [h, Rat.divInt_eq_div]
    norm_num

/-- C1: `deheap_sort` fails to sort: the inner sift bound is off by one
(`root * 2 + 1 < heap_end` with `heap_end` already decremented excludes the
last unsorted position), so on the reachable heap whose single row is built
by pushing weights 1, 0, 2 (indices 0, 1, 2) into a fresh 3-slot row, the
returned row has weights `1, 0, 2`, which is not ascending. -/
theorem deheap_sort_unsorted_on_push_built_heap :
    deheap_sort
        (applyPushes (make_heap 1 3)
          [⟨0, ((1 : ℚ) : W), 0, true⟩, ⟨0, ((0 : ℚ) : W), 1, true⟩,
            ⟨0, ((2 : ℚ) : W), 2, true⟩]) =
      [[(0, ((1 : ℚ) : W)), (1, ((0 : ℚ) : W)), (2, ((2 : ℚ) : W))]] ∧
    ¬ AscendingW
        ((deheap_sort
            (applyPushes (make_heap 1 3)
              [⟨0, ((1 : ℚ) : W), 0, true⟩, ⟨0, ((0 : ℚ) : W), 1, true⟩,
                ⟨0, ((2 : ℚ) : W), 2, true⟩])).getD 0 []) := by decide

/-- A successful inner acceptance loop returns a value that is fresh and lies
in `[0, poolSize)`. -/
theorem drawFresh_some (poolSize : Nat) (acc : List Int) (s : RngState) (fuel : Nat)
    (j : Int) (s2 : RngState) (hp : 0 < poolSize)
    (h : drawFresh poolSize acc s fuel = some (j, s2)) :
    j ∉ acc ∧ 0 ≤ j ∧ j < (poolSize : Int) := by
  induction fuel generalizing s with
  | zero => simp [drawFresh] at h
  | succ n ih =>
    simp only [drawFresh] at h
    split at h
    · exact ih _ h
    · rename_i hm
      obtain ⟨hj, _⟩ := Prod.mk.injEq .. ▸ Option.some.injEq .. ▸ h
      subst hj
      refine ⟨hm, Int.emod_nonneg _ ?_, Int.emod_lt_of_pos _ ?_⟩
      · exact_mod_cast Nat.pos_iff_ne_zero.mp hp
      · exact_mod_cast hp

/-- Any successful run of the outer sampling loop extends the accumulator with
fresh in-range values: the output has the stated length, is duplicate-free,
and lies in `[0, poolSize)`. -/
theorem rejectionSampleAux_some (poolSize fuel : Nat) (hp : 0 < poolSize) :
    ∀ (need : Nat) (acc : List Int) (s : RngState) (l : List Int) (sF : RngState),
      rejectionSampleAux poolSize fuel need acc s = some (l, sF) →
      acc.Nodup → (∀ x ∈ acc, 0 ≤ x ∧ x < (poolSize : Int)) →
      l.length = need + acc.length ∧ l.Nodup ∧ ∀ x ∈ l, 0 ≤ x ∧ x < (poolSize : Int) := by
  intro need
  induction need with
  | zero =>
    intro acc s l sF h hnd hmem
    simp only [rejectionSampleAux, Option.some.injEq, Prod.mk.injEq] at h
    obtain ⟨hl, _⟩ := h
    subst hl
    refine ⟨by simp, by simpa using hnd, ?_⟩
    intro x hx
    exact hmem x (by simpa using hx)
  | succ need ih =>
    intro acc s l sF h hnd hmem
    simp only [rejectionSampleAux] at h
    split at h
    · exact absurd h (by simp)
    · rename_i j s' hd
      obtain ⟨hfresh, hge, hlt⟩ := drawFresh_some poolSize acc s fuel j s' hp hd
      have hres := ih (j :: acc) s' l sF h (List.nodup_cons.mpr ⟨hfresh, hnd⟩)
        (by
          intro x hx
          rcases List.mem_cons.mp hx with hx | hx
          · subst hx; exact ⟨hge, hlt⟩
          · exact hmem x hx)
      refine ⟨?_, hres.2.1, hres.2.2⟩
      rw [hres.1]
      simp only [List.length_cons]
      omega

/-- A duplicate-free list of integers contained in `[0, poolSize)` whose
length is at least `poolSize` contains every integer of `[0, poolSize)`. -/
theorem full_acc_contains_all (poolSize : Nat) (acc : List Int) (hnd : acc.Nodup)
    (hmem : ∀ x ∈ acc, 0 ≤ x ∧ x < (poolSize : Int)) (hlen : poolSize ≤ acc.length) :
    ∀ x : Int, 0 ≤ x → x < (poolSize : Int) → x ∈ acc := by
  have hsub : acc ⊆ intRange poolSize := by
    intro x hx
    rw [intRange]
    obtain ⟨hge, hlt⟩ := hmem x hx
    have h1 : x.toNat < poolSize := by omega
    have h2 : Int.ofNat x.toNat = x := by rw [Int.ofNat_eq_natCast]; omega
    exact List.mem_map.mpr ⟨x.toNat, List.mem_range.mpr h1, h2⟩
  have hperm := (List.subperm_of_subset hnd hsub).perm_of_length_le
    (by rw [intRange, List.length_map, List.length_range]; exact hlen)
  intro x hx1 hx2
  have h1 : x.toNat < poolSize := by omega
  have h2 : Int.ofNat x.toNat = x := by rw [Int.ofNat_eq_natCast]; omega
  have h3 : x ∈ intRange poolSize := by
    rw [intRange]
    exact List.mem_map.mpr ⟨x.toNat, List.mem_range.mpr h1, h2⟩
  exact hperm.mem_iff.mpr h3

/-- Once the accumulator already contains every residue modulo `poolSize`,
the acceptance loop can never succeed, whatever the fuel. -/
theorem drawFresh_none_of_full (poolSize : Nat) (acc : List Int) (hp : 0 < poolSize)
    (hfull : ∀ x : Int, 0 ≤ x → x < (poolSize : Int) → x ∈ acc) :
    ∀ (fuel : Nat) (s : RngState), drawFresh poolSize acc s fuel = none := by
  intro fuel
  induction fuel with
  | zero => intro s; rfl
  | succ n ih =>
    intro s
    have hj : ((tau_rand_int s).1 % (poolSize : Int)) ∈ acc := by
      refine hfull _ (Int.emod_nonneg _ ?_) (Int.emod_lt_of_pos _ ?_)
      · exact_mod_cast Nat.pos_iff_ne_zero.mp hp
      · exact_mod_cast hp
    simp only [drawFresh, if_pos hj]
    exact ih _

/-- The outer sampling loop returns `none` for every fuel whenever more
values are still needed than distinct values remain available. -/
theorem rejectionSampleAux_none (poolSize fuel : Nat) (hp : 0 < poolSize) :
    ∀ (need : Nat) (acc : List Int) (s : RngState), acc.Nodup →
      (∀ x ∈ acc, 0 ≤ x ∧ x < (poolSize : Int)) → poolSize < need + acc.length →
      rejectionSampleAux poolSize fuel need acc s = none := by
  intro need
  induction need with
  | zero =>
    intro acc s hnd hmem hlen
    have hsub : acc ⊆ intRange poolSize := by
      intro x hx
      rw [intRange]
      obtain ⟨hge, hlt⟩ := hmem x hx
      have h1 : x.toNat < poolSize := by omega
      have h2 : Int.ofNat x.toNat = x := by rw [Int.ofNat_eq_natCast]; omega
      exact List.mem_map.mpr ⟨x.toNat, List.mem_range.mpr h1, h2⟩
    have := (List.subperm_of_subset hnd hsub).length_le
    simp only [intRange, List.length_map, List.length_range] at this
    omega
  | succ need ih =>
    intro acc s hnd hmem hlen
    by_cases hfull : poolSize ≤ acc.length
    · have hnone := drawFresh_none_of_full poolSize acc hp
        (full_acc_contains_all poolSize acc hnd hmem hfull) fuel s
      simp [rejectionSampleAux, hnone]
    · cases hd : drawFresh poolSize acc s fuel with
      | none => simp [rejectionSampleAux, hd]
      | some v =>
        obtain ⟨j, s'⟩ := v
        obtain ⟨hfresh, hge, hlt⟩ := drawFresh_some poolSize acc s fuel j s' hp hd
        simp only [rejectionSampleAux, hd]
        refine ih (j :: acc) s' (List.nodup_cons.mpr ⟨hfresh, hnd⟩) ?_ (by simp only [List.length_cons]; omega)
        intro x hx
        rcases List.mem_cons.mp hx with hx | hx
        · subst hx; exact ⟨hge, hlt⟩
        · exact hmem x hx

/-- C6: whenever `rejection_sample(n, poolSize, state)` terminates with a
result (for `0 ≤ n ≤ poolSize`), the result consists of exactly `n` pairwise
distinct integers, each in `[0, poolSize)`; when `n = poolSize` it is a
permutation of `[0, poolSize)`. -/
theorem rejection_sample_correct (n poolSize : Nat) (s : RngState) (fuel : Nat)
    (l : List Int) (sF : RngState) (hn : n ≤ poolSize)
    (h : rejection_sample n poolSize s fuel = some (l, sF)) :
    l.length = n ∧ l.Nodup ∧ (∀ x ∈ l, 0 ≤ x ∧ x < (poolSize : Int)) ∧
      (n = poolSize → l.Perm (intRange poolSize)) := by
  rcases Nat.eq_zero_or_pos n with h0 | hpos
  · subst h0
    simp only [rejection_sample, rejectionSampleAux, List.reverse_nil,
      Option.some.injEq, Prod.mk.injEq] at h
    obtain ⟨hl, _⟩ := h
    subst hl
    refine ⟨rfl, List.nodup_nil, by simp, ?_⟩
    intro he
    rw [← he]
    exact List.Perm.refl _
  · have hp : 0 < poolSize := lt_of_lt_of_le hpos hn
    obtain ⟨hlen, hnd, hmem⟩ := rejectionSampleAux_some poolSize fuel hp n [] s l sF h
      List.nodup_nil (by simp)
    simp only [List.length_nil, Nat.add_zero] at hlen
    refine ⟨hlen, hnd, hmem, ?_⟩
    intro he
    subst he
    have hsub : l ⊆ intRange n := by
      intro x hx
      rw [intRange]
      obtain ⟨hge, hlt⟩ := hmem x hx
      have h1 : x.toNat < n := by omega
      have h2 : Int.ofNat x.toNat = x := by rw [Int.ofNat_eq_natCast]; omega
      exact List.mem_map.mpr ⟨x.toNat, List.mem_range.mpr h1, h2⟩
    exact (List.subperm_of_subset hnd hsub).perm_of_length_le
      (by rw [intRange, List.length_map, List.length_range, hlen])

/-- Witness for C6 at a concrete terminating run: sampling 3 of 3 values
returns the permutation `[0, 1, 2]` of the pool. -/
theorem rejection_sample_correct_witness :
    ([0, 1, 2] : List Int).length = 3 ∧ ([0, 1, 2] : List Int).Nodup ∧
      (∀ x ∈ ([0, 1, 2] : List Int), 0 ≤ x ∧ x < (3 : Int)) ∧
      (3 = 3 → ([0, 1, 2] : List Int).Perm (intRange 3)) :=
  rejection_sample_correct 3 3 ⟨123, 456, 789⟩ 50 [0, 1, 2]
    ⟨973086366, 478150659, 917280⟩ (by decide) (by decide)

/-- C7: `rejection_sample(n, poolSize, state)` with `n > poolSize > 0` never
terminates: for every fuel bound the fuelled model returns `none`, because
once `poolSize` distinct residues have been accepted the acceptance loop for
the next value can never succeed. -/
theorem rejection_sample_nonterminating (n poolSize : Nat) (s : RngState) (fuel : Nat)
    (hp : 0 < poolSize) (hn : poolSize < n) :
    rejection_sample n poolSize s fuel = none :=
  rejectionSampleAux_none poolSize fuel hp n [] s List.nodup_nil (by simp) (by simpa)

/-- Witness for C7 at a concrete input: asking for 2 values from a pool of 1
fails for fuel 5. -/
theorem rejection_sample_nonterminating_witness :
    rejection_sample 2 1 ⟨1, 2, 3⟩ 5 = none :=
  rejection_sample_nonterminating 2 1 ⟨1, 2, 3⟩ 5 (by decide) (by decide)

/-- Characterization of the `smallest_flagged` scan loop: either it returns
the accumulator unchanged and no remaining slot improves on the running
minimum, or it returns the offset position of a flagged slot strictly below
the running minimum whose weight is minimal among all flagged remaining
slots. -/
theorem sfScan_characterization (rest : List Slot) :
    ∀ (i : Nat) (minD : W) (acc : Option Nat),
      (sfScan rest i minD acc = acc ∧ ∀ s ∈ rest, ¬(s.flag = true ∧ s.weight < minD)) ∨
      (∃ k, ∃ hk : k < rest.length,
        sfScan rest i minD acc = some (i + k) ∧
        (rest.get ⟨k, hk⟩).flag = true ∧ (rest.get ⟨k, hk⟩).weight < minD ∧
        ∀ s ∈ rest, s.flag = true → (rest.get ⟨k, hk⟩).weight ≤ s.weight) := by
  induction rest with
  | nil =>
    intro i minD acc
    exact Or.inl ⟨rfl, by simp⟩
  | cons s0 t ih =>
    intro i minD acc
    by_cases hc : s0.flag = true ∧ s0.weight < minD
    · have hstep : sfScan (s0 :: t) i minD acc = sfScan t (i + 1) s0.weight (some i) := by
        simp only [sfScan, if_pos hc]
      rcases ih (i + 1) s0.weight (some i) with ⟨heq, hno⟩ | ⟨k, hk, heq, hf, hw, hmin⟩
      · refine Or.inr ⟨0, by simp, ?_, hc.1, hc.2, ?_⟩
        · rw [hstep, heq, Nat.add_zero]
        · intro s hs _
          rcases List.mem_cons.mp hs with hs | hs
          · subst hs; exact le_refl _
          · rename_i hflag
            have := hno s hs
            simp only [hflag, true_and, not_lt] at this
            exact this
      · refine Or.inr ⟨k + 1, by simpa using hk, ?_, hf, lt_trans hw hc.2, ?_⟩
        · rw [hstep, heq]
          congr 1
          omega
        · intro s hs hflag
          rcases List.mem_cons.mp hs with hs | hs
          · subst hs; exact le_of_lt hw
          · exact hmin s hs hflag
    · have hstep : sfScan (s0 :: t) i minD acc = sfScan t (i + 1) minD acc := by
        simp only [sfScan, if_neg hc]
      rcases ih (i + 1) minD acc with ⟨heq, hno⟩ | ⟨k, hk, heq, hf, hw, hmin⟩
      · refine Or.inl ⟨by rw [hstep, heq], ?_⟩
        intro s hs
        rcases List.mem_cons.mp hs with hs | hs
        · subst hs; exact hc
        · exact hno s hs
      · refine Or.inr ⟨k + 1, by simpa using hk, ?_, hf, hw, ?_⟩
        · rw [hstep, heq]
          congr 1
          omega
        · intro s hs hflag
          rcases List.mem_cons.mp hs with hs | hs
          · have hflag0 : s0.flag = true := hs ▸ hflag
            have hge : minD ≤ s0.weight := by
              by_contra hlt
              exact hc ⟨hflag0, not_le.mp hlt⟩
            rw [hs]
            exact le_of_lt (lt_of_lt_of_le hw hge)
          · exact hmin s hs hflag

/-- Every position the scan selects is in range and holds a flagged slot. -/
theorem sfScan_picks_flagged (l : List Slot) (k : Nat)
    (h : sfScan l 0 ⊤ none = some k) :
    ∃ hk : k < l.length, (l.get ⟨k, hk⟩).flag = true := by
  rcases sfScan_characterization l 0 ⊤ none with ⟨heq, _⟩ | ⟨k2, hk2, heq, hf, _, _⟩
  · rw [heq] at h; exact absurd h (by simp)
  · rw [heq] at h
    obtain hkk := Option.some.injEq .. ▸ h
    have hke : k2 = k := by omega
    subst hke
    exact ⟨hk2, hf⟩

/-- C4: the claim as stated is false: a slot whose `isNew` flag is set but
whose weight is `np.inf` is never selected (the scan demands a strict
improvement on the initial `min_dist = np.inf`), so `smallest_flagged`
returns `-1` although a slot has `isNew` true.  The heap is reachable:
pushing weight `np.inf` into a fresh one-slot row succeeds. -/
theorem smallest_flagged_inf_counterexample :
    heapPushAt (make_heap 1 1) 0 ⊤ 0 true = (1, [[⟨0, ⊤, true⟩]]) ∧
    (smallest_flagged [[⟨0, ⊤, true⟩]] 0).1 = -1 ∧
    (smallest_flagged [[⟨0, ⊤, true⟩]] 0).2 = [[⟨0, ⊤, true⟩]] ∧
    ((([[⟨0, ⊤, true⟩]] : Heap).getD 0 []).getD 0 defaultSlot).flag = true := by
  decide

/-- C4 (amended): `smallest_flagged(heap, row)` returns `-1` with no mutation
whenever no slot of the row has `isNew` true together with a finite weight
(`weight < np.inf`); otherwise it returns the stored index of the first
minimal-weight slot among those with `isNew` true, clears exactly that slot's
flag, and a repeated call never selects the same slot again. -/
theorem smallest_flagged_spec (h : Heap) (row : Nat) :
    ((∀ s ∈ h.getD row [], ¬(s.flag = true ∧ s.weight < ⊤)) →
        smallest_flagged h row = (-1, h)) ∧
    ((∃ s ∈ h.getD row [], s.flag = true ∧ s.weight < ⊤) →
      ∃ k, ∃ hk : k < (h.getD row []).length,
        ((h.getD row []).get ⟨k, hk⟩).flag = true ∧
        ((h.getD row []).get ⟨k, hk⟩).weight < ⊤ ∧
        (∀ s ∈ h.getD row [], s.flag = true →
          ((h.getD row []).get ⟨k, hk⟩).weight ≤ s.weight) ∧
        (smallest_flagged h row).1 = ((h.getD row []).get ⟨k, hk⟩).index ∧
        (smallest_flagged h row).2 =
          h.set row ((h.getD row []).set k
            { (h.getD row []).get ⟨k, hk⟩ with flag := false }) ∧
        (∀ k2, sfScan ((h.getD row []).set k
            { (h.getD row []).get ⟨k, hk⟩ with flag := false }) 0 ⊤ none = some k2 →
          k2 ≠ k)) := by
  rcases sfScan_characterization (h.getD row []) 0 ⊤ none with
    ⟨heq, hno⟩ | ⟨k, hk, heq, hf, hw, hmin⟩
  · constructor
    · intro _
      simp only [smallest_flagged, heq]
    · intro ⟨s, hs, hflag, hwt⟩
      exact absurd ⟨hflag, hwt⟩ (hno s hs)
  · simp only [Nat.zero_add] at heq
    constructor
    · intro hno
      exact absurd ⟨hf, hw⟩ (hno _ (List.get_mem _ k hk))
    · intro _
      have hgd : sAt (h.getD row []) k = (h.getD row []).get ⟨k, hk⟩ := by
        rw [sAt, List.getD_eq_getElem _ _ hk, List.get_eq_getElem]
      refine ⟨k, hk, hf, hw, hmin, ?_, ?_, ?_⟩
      · simp only [smallest_flagged, heq, hgd]
      · simp only [smallest_flagged, heq, hgd]
      · intro k2 hscan hke
        subst hke
        obtain ⟨hk2, hf2⟩ := sfScan_picks_flagged _ _ hscan
        rw [List.get_eq_getElem, List.getElem_set_self] at hf2
        · exact absurd hf2 (by simp)

/-- Witness for the amended C4 at a concrete input: on a freshly allocated
heap no slot is flagged with finite weight, so the call returns `-1` and
leaves the heap untouched. -/
theorem smallest_flagged_spec_witness :
    smallest_flagged (make_heap 1 2) 0 = (-1, make_heap 1 2) :=
  (smallest_flagged_spec (make_heap 1 2) 0).1 (by decide)

/-- Unfolding equation of `siftDown` at positive fuel. -/
theorem siftDown_succ (x : Slot) (l : List Slot) (i fuel : Nat) :
    siftDown x l i (fuel + 1) =
      (if 2 * i + 1 ≥ l.length then l.set i x
       else if 2 * i + 2 ≥ l.length then
         (if x.weight < (sAt l (2 * i + 1)).weight then
            siftDown x (l.set i (sAt l (2 * i + 1))) (2 * i + 1) fuel
          else l.set i x)
       else if (sAt l (2 * i + 2)).weight ≤ (sAt l (2 * i + 1)).weight then
         (if x.weight < (sAt l (2 * i + 1)).weight then
            siftDown x (l.set i (sAt l (2 * i + 1))) (2 * i + 1) fuel
          else l.set i x)
       else
         (if x.weight < (sAt l (2 * i + 2)).weight then
            siftDown x (l.set i (sAt l (2 * i + 2))) (2 * i + 2) fuel
          else l.set i x)) := rfl

/-- Writing the carried element into the hole yields a heap provided the rest
of the row is heap-ordered around the hole, the element is dominated by the
hole's parent, and it dominates the hole's children. -/
theorem heapProp_set (l : List Slot) (i : Nat) (x : Slot) (hi : i < l.length)
    (h1 : ∀ p c, c < l.length → (c = 2 * p + 1 ∨ c = 2 * p + 2) → p ≠ i → c ≠ i →
      (sAt l c).weight ≤ (sAt l p).weight)
    (h3 : ∀ p, (i = 2 * p + 1 ∨ i = 2 * p + 2) → x.weight ≤ (sAt l p).weight)
    (hch : ∀ c, c < l.length → (c = 2 * i + 1 ∨ c = 2 * i + 2) →
      (sAt l c).weight ≤ x.weight) :
    HeapProp (l.set i x) := by
  intro p hp c hc hor
  rw [List.length_set] at hp hc
  by_cases hpi : p = i
  · subst hpi
    rw [sAt_set_eq l p x hp, sAt_set_ne l p c x (by omega)]
    exact hch c hc hor
  · by_cases hci : c = i
    · subst hci
      rw [sAt_set_eq l c x hc, sAt_set_ne l c p x (by omega)]
      exact h3 p hor
    · rw [sAt_set_ne l i c x (fun he => hci he.symm), sAt_set_ne l i p x (fun he => hpi he.symm)]
      exact h1 p c hc hor hpi hci

/-- The three hole invariants are re-established after copying the chosen
child `ic` up into the hole `i` and descending into `ic`. -/
theorem siftDown_rec_hyps (l : List Slot) (i ic : Nat) (x : Slot)
    (hi : i < l.length) (hic : ic < l.length) (hchild : ic = 2 * i + 1 ∨ ic = 2 * i + 2)
    (h1 : ∀ p c, c < l.length → (c = 2 * p + 1 ∨ c = 2 * p + 2) → p ≠ i → c ≠ i →
      (sAt l c).weight ≤ (sAt l p).weight)
    (h2 : ∀ c, c < l.length → (c = 2 * i + 1 ∨ c = 2 * i + 2) →
      ∀ p, (i = 2 * p + 1 ∨ i = 2 * p + 2) → (sAt l c).weight ≤ (sAt l p).weight)
    (hother : ∀ c, c < l.length → (c = 2 * i + 1 ∨ c = 2 * i + 2) → c ≠ ic →
      (sAt l c).weight ≤ (sAt l ic).weight)
    (hxlt : x.weight < (sAt l ic).weight) :
    (∀ p c, c < (l.set i (sAt l ic)).length → (c = 2 * p + 1 ∨ c = 2 * p + 2) →
      p ≠ ic → c ≠ ic →
      (sAt (l.set i (sAt l ic)) c).weight ≤ (sAt (l.set i (sAt l ic)) p).weight) ∧
    (∀ c, c < (l.set i (sAt l ic)).length → (c = 2 * ic + 1 ∨ c = 2 * ic + 2) →
      ∀ p, (ic = 2 * p + 1 ∨ ic = 2 * p + 2) →
        (sAt (l.set i (sAt l ic)) c).weight ≤ (sAt (l.set i (sAt l ic)) p).weight) ∧
    (∀ p, (ic = 2 * p + 1 ∨ ic = 2 * p + 2) →
      x.weight ≤ (sAt (l.set i (sAt l ic)) p).weight) := by
  refine ⟨?_, ?_, ?_⟩
  · intro p c hc hor hpic hcic
    rw [List.length_set] at hc
    by_cases hpi : p = i
    · subst hpi
      rw [sAt_set_eq l p _ hi, sAt_set_ne l p c _ (by omega)]
      exact hother c hc hor hcic
    · by_cases hci : c = i
      · subst hci
        rw [sAt_set_eq l c _ hi, sAt_set_ne l c p _ (by omega)]
        exact h2 ic hic hchild p hor
      · rw [sAt_set_ne l i c _ (fun he => hci he.symm),
          sAt_set_ne l i p _ (fun he => hpi he.symm)]
        exact h1 p c hc hor hpi hci
  · intro c hc hcor p hpor
    have hpi : p = i := by omega
    subst hpi
    rw [List.length_set] at hc
    rw [sAt_set_eq l p _ hi, sAt_set_ne l p c _ (by omega)]
    exact h1 ic c hc hcor (by omega) (by omega)
  · intro p hpor
    have hpi : p = i := by omega
    subst hpi
    rw [sAt_set_eq l p _ hi]
    exact le_of_lt hxlt

/-- Sift-down correctness: starting from a hole `i` whose surroundings are
heap-ordered (`h1`), whose children are dominated by its parent (`h2`) and
whose parent dominates the carried element (`h3`), the sift-down loop
restores the max-heap property on the whole row.  The fuel hypothesis is met
by the `l.length` fuel that `heap_push` passes. -/
theorem siftDown_heapProp (x : Slot) :
    ∀ (fuel : Nat) (l : List Slot) (i : Nat),
      i < l.length → l.length ≤ fuel + i →
      (∀ p c, c < l.length → (c = 2 * p + 1 ∨ c = 2 * p + 2) → p ≠ i → c ≠ i →
        (sAt l c).weight ≤ (sAt l p).weight) →
      (∀ c, c < l.length → (c = 2 * i + 1 ∨ c = 2 * i + 2) →
        ∀ p, (i = 2 * p + 1 ∨ i = 2 * p + 2) → (sAt l c).weight ≤ (sAt l p).weight) →
      (∀ p, (i = 2 * p + 1 ∨ i = 2 * p + 2) → x.weight ≤ (sAt l p).weight) →
      HeapProp (siftDown x l i fuel) := by
  intro fuel
  induction fuel with
  | zero =>
    intro l i hi hfuel _ _ _
    omega
  | succ fuel ih =>
    intro l i hi hfuel h1 h2 h3
    rw [siftDown_succ]
    by_cases hA : 2 * i + 1 ≥ l.length
    · rw [if_pos hA]
      refine heapProp_set l i x hi h1 h3 ?_
      intro c hc hor
      exact absurd hc (by omega)
    · rw [if_neg hA]
      have hic1 : 2 * i + 1 < l.length := by omega
      by_cases hB : 2 * i + 2 ≥ l.length
      · rw [if_pos hB]
        by_cases hC : x.weight < (sAt l (2 * i + 1)).weight
        · rw [if_pos hC]
          obtain ⟨h1n, h2n, h3n⟩ := siftDown_rec_hyps l i (2 * i + 1) x hi hic1
            (Or.inl rfl) h1 h2
            (by
              intro c hc hcor hne
              rcases hcor with h | h
              · exact absurd h hne
              · exact absurd hc (by omega))
            hC
          exact ih _ _ (by rw [List.length_set]; omega)
            (by rw [List.length_set]; omega) h1n h2n h3n
        · rw [if_neg hC]
          refine heapProp_set l i x hi h1 h3 ?_
          intro c hc hor
          rcases hor with h | h
          · subst h; exact not_lt.mp hC
          · exact absurd hc (by omega)
      · rw [if_neg hB]
        have hic2 : 2 * i + 2 < l.length := by omega
        by_cases hD : (sAt l (2 * i + 2)).weight ≤ (sAt l (2 * i + 1)).weight
        · rw [if_pos hD]
          by_cases hE : x.weight < (sAt l (2 * i + 1)).weight
          · rw [if_pos hE]
            obtain ⟨h1n, h2n, h3n⟩ := siftDown_rec_hyps l i (2 * i + 1) x hi hic1
              (Or.inl rfl) h1 h2
              (by
                intro c hc hcor hne
                rcases hcor with h | h
                · exact absurd h hne
                · subst h; exact hD)
              hE
            exact ih _ _ (by rw [List.length_set]; omega)
              (by rw [List.length_set]; omega) h1n h2n h3n
          · rw [if_neg hE]
            refine heapProp_set l i x hi h1 h3 ?_
            intro c hc hor
            rcases hor with h | h
            · subst h; exact not_lt.mp hE
            · subst h; exact hD.trans (not_lt.mp hE)
        · rw [if_neg hD]
          by_cases hF : x.weight < (sAt l (2 * i + 2)).weight
          · rw [if_pos hF]
            obtain ⟨h1n, h2n, h3n⟩ := siftDown_rec_hyps l i (2 * i + 2) x hi hic2
              (Or.inr rfl) h1 h2
              (by
                intro c hc hcor hne
                rcases hcor with h | h
                · subst h; exact le_of_lt (not_le.mp hD)
                · exact absurd h hne)
              hF
            exact ih _ _ (by rw [List.length_set]; omega)
              (by rw [List.length_set]; omega) h1n h2n h3n
          · rw [if_neg hF]
            refine heapProp_set l i x hi h1 h3 ?_
            intro c hc hor
            rcases hor with h | h
            · subst h; exact (le_of_lt (not_le.mp hD)).trans (not_lt.mp hF)
            · subst h; exact not_lt.mp hF

/-- Sift-down rearranges the row: the result is a permutation of the carried
element together with the row minus the hole. -/
theorem siftDown_perm (x : Slot) :
    ∀ (fuel : Nat) (l : List Slot) (i : Nat), i < l.length →
      (siftDown x l i fuel).Perm (x :: l.eraseIdx i) := by
  have key : ∀ (l : List Slot) (i ic : Nat), i < l.length → ic < l.length → i ≠ ic →
      ((l.set i (sAt l ic)).eraseIdx ic).Perm (l.eraseIdx i) := by
    intro l i ic hi hic hne
    have pA := set_perm l i (sAt l ic) hi
    have pB := cons_eraseIdx_perm (l.set i (sAt l ic)) ic (by rw [List.length_set]; exact hic)
    rw [sAt_set_ne l i ic _ hne] at pB
    exact (pB.symm.trans pA).cons_inv
  intro fuel
  induction fuel with
  | zero => intro l i hi; exact set_perm l i x hi
  | succ fuel ih =>
    intro l i hi
    rw [siftDown_succ]
    by_cases hA : 2 * i + 1 ≥ l.length
    · rw [if_pos hA]; exact set_perm l i x hi
    · rw [if_neg hA]
      have hic1 : 2 * i + 1 < l.length := by omega
      by_cases hB : 2 * i + 2 ≥ l.length
      · rw [if_pos hB]
        by_cases hC : x.weight < (sAt l (2 * i + 1)).weight
        · rw [if_pos hC]
          have hrec := ih (l.set i (sAt l (2 * i + 1))) (2 * i + 1)
            (by rw [List.length_set]; exact hic1)
          exact hrec.trans ((key l i (2 * i + 1) hi hic1 (by omega)).cons x)
        · rw [if_neg hC]; exact set_perm l i x hi
      · rw [if_neg hB]
        have hic2 : 2 * i + 2 < l.length := by omega
        by_cases hD : (sAt l (2 * i + 2)).weight ≤ (sAt l (2 * i + 1)).weight
        · rw [if_pos hD]
          by_cases hE : x.weight < (sAt l (2 * i + 1)).weight
          · rw [if_pos hE]
            have hrec := ih (l.set i (sAt l (2 * i + 1))) (2 * i + 1)
              (by rw [List.length_set]; exact hic1)
            exact hrec.trans ((key l i (2 * i + 1) hi hic1 (by omega)).cons x)
          · rw [if_neg hE]; exact set_perm l i x hi
        · rw [if_neg hD]
          by_cases hF : x.weight < (sAt l (2 * i + 2)).weight
          · rw [if_pos hF]
            have hrec := ih (l.set i (sAt l (2 * i + 2))) (2 * i + 2)
              (by rw [List.length_set]; exact hic2)
            exact hrec.trans ((key l i (2 * i + 2) hi hic2 (by omega)).cons x)
          · rw [if_neg hF]; exact set_perm l i x hi

/-- The empty row satisfies the heap property. -/
theorem heapProp_nil : HeapProp [] := by
  intro i hi
  simp at hi

/-- The empty row has no duplicate indices. -/
theorem noDupIdx_nil : NoDupIdx [] := by
  simp [NoDupIdx]

/-- Pushing preserves the per-row max-heap property. -/
theorem heap_push_heapProp (l : List Slot) (w : W) (idx : Int) (f : Bool)
    (h : HeapProp l) : HeapProp (heap_push l w idx f).2 := by
  unfold heap_push
  by_cases hg1 : (sAt l 0).weight < w
  · rw [if_pos hg1]; exact h
  · rw [if_neg hg1]
    by_cases hg2 : idx ∈ l.map Slot.index
    · rw [if_pos hg2]; exact h
    · rw [if_neg hg2]
      show HeapProp (siftDown ⟨idx, w, f⟩ l 0 l.length)
      cases l with
      | nil => exact heapProp_nil
      | cons a t =>
        apply siftDown_heapProp _ _ _ 0 (by simp) (by simp)
        · intro p c hc hor hpne _
          have hp : p < (a :: t).length := by omega
          exact h p hp c hc hor
        · intro c _ _ p hpor
          exact absurd hpor (by omega)
        · intro p hpor
          exact absurd hpor (by omega)

/-- Pushing preserves the absence of duplicate non-sentinel indices. -/
theorem heap_push_noDupIdx (l : List Slot) (w : W) (idx : Int) (f : Bool)
    (h : NoDupIdx l) : NoDupIdx (heap_push l w idx f).2 := by
  unfold heap_push
  by_cases hg1 : (sAt l 0).weight < w
  · rw [if_pos hg1]; exact h
  · rw [if_neg hg1]
    by_cases hg2 : idx ∈ l.map Slot.index
    · rw [if_pos hg2]; exact h
    · rw [if_neg hg2]
      show NoDupIdx (siftDown ⟨idx, w, f⟩ l 0 l.length)
      cases l with
      | nil => exact noDupIdx_nil
      | cons a t =>
        have hperm := siftDown_perm ⟨idx, w, f⟩ (a :: t).length (a :: t) 0 (by simp)
        have hmap := hperm.map Slot.index
        have hfil := hmap.filter (fun x : Int => x ≠ -1)
        rw [NoDupIdx, hfil.nodup_iff]
        have hsubl : List.Sublist ((t.map Slot.index).filter (fun x : Int => x ≠ -1))
            ((a.index :: t.map Slot.index).filter (fun x : Int => x ≠ -1)) :=
          (List.sublist_cons_self a.index (t.map Slot.index)).filter _
        have hbase : ((a.index :: t.map Slot.index).filter (fun x : Int => x ≠ -1)).Nodup := h
        by_cases hidx : idx = -1
        · rw [show ((⟨idx, w, f⟩ : Slot) :: (a :: t).eraseIdx 0).map Slot.index =
              idx :: t.map Slot.index from rfl]
          rw [List.filter_cons_of_neg (by simp [hidx])]
          exact hbase.sublist hsubl
        · rw [show ((⟨idx, w, f⟩ : Slot) :: (a :: t).eraseIdx 0).map Slot.index =
              idx :: t.map Slot.index from rfl]
          rw [List.filter_cons_of_pos (by simp [hidx])]
          refine List.nodup_cons.mpr ⟨?_, hbase.sublist hsubl⟩
          intro hmem
          have : idx ∈ t.map Slot.index := List.mem_of_mem_filter hmem
          exact hg2 (by simp only [List.map_cons]; exact List.mem_cons_of_mem _ this)

/-- Every slot of a freshly allocated row reads as the sentinel slot. -/
theorem sAt_replicate (n j : Nat) : sAt (List.replicate n defaultSlot) j = defaultSlot := by
  rw [sAt, List.getD_eq_getElem?_getD, List.getElem?_replicate]
  split <;> rfl

/-- A freshly allocated row satisfies the heap property (all weights `⊤`). -/
theorem heapProp_replicate (n : Nat) : HeapProp (List.replicate n defaultSlot) := by
  intro i _ c _ _
  rw [sAt_replicate, sAt_replicate]

/-- A freshly allocated row has no duplicate non-sentinel index. -/
theorem noDupIdx_replicate (n : Nat) : NoDupIdx (List.replicate n defaultSlot) := by
  rw [NoDupIdx]
  have heq : ((List.replicate n defaultSlot).map Slot.index).filter
      (fun x : Int => x ≠ -1) = [] := by
    rw [List.filter_eq_nil_iff]
    intro a ha
    have := List.eq_of_mem_replicate (List.map_replicate .. ▸ ha)
    simp [this, defaultSlot]
  rw [heq]
  exact List.nodup_nil

/-- Pushing preserves the row invariants across a whole heap. -/
theorem applyPushes_invariant (h : Heap) (ops : List PushOp)
    (hinv : ∀ row ∈ h, HeapProp row ∧ NoDupIdx row) :
    ∀ row ∈ applyPushes h ops, HeapProp row ∧ NoDupIdx row := by
  induction ops generalizing h with
  | nil => exact hinv
  | cons op rest ih =>
    apply ih
    intro row hrow
    rcases List.mem_or_eq_of_mem_set hrow with hmem | heq
    · exact hinv row hmem
    · subst heq
      have hbase : HeapProp (h.getD op.row []) ∧ NoDupIdx (h.getD op.row []) := by
        by_cases hr : op.row < h.length
        · have hm : h.getD op.row [] ∈ h := by
            rw [List.getD_eq_getElem _ _ hr]
            exact List.getElem_mem hr
          exact hinv _ hm
        · rw [List.getD_eq_getElem?_getD, List.getElem?_eq_none (le_of_not_lt hr)]
          exact ⟨heapProp_nil, noDupIdx_nil⟩
      exact ⟨heap_push_heapProp _ _ _ _ hbase.1, heap_push_noDupIdx _ _ _ _ hbase.2⟩

/-- C3: starting from a heap created by `make_heap` (all indices `-1`, all
weights `np.inf`, all flags 0), after any finite sequence of `heap_push`
calls every row satisfies the max-heap property (`weight[parent] >=
weight[child]` for every child position in range) and contains no two slots
with the same non-sentinel index. -/
theorem heap_invariant_after_pushes (nPoints size : Nat) (ops : List PushOp) :
    ∀ row ∈ applyPushes (make_heap nPoints size) ops, HeapProp row ∧ NoDupIdx row := by
  apply applyPushes_invariant
  intro row hrow
  have heq : row = List.replicate size defaultSlot := List.eq_of_mem_replicate hrow
  subst heq
  exact ⟨heapProp_replicate size, noDupIdx_replicate size⟩

/-- Witness for C3: the row built by three concrete pushes is a max-heap with
distinct indices. -/
theorem heap_invariant_after_pushes_witness :
    HeapProp [⟨2, ((2 : ℚ) : W), true⟩, ⟨0, ((1 : ℚ) : W), true⟩, ⟨1, ((0 : ℚ) : W), true⟩] ∧
    NoDupIdx [⟨2, ((2 : ℚ) : W), true⟩, ⟨0, ((1 : ℚ) : W), true⟩, ⟨1, ((0 : ℚ) : W), true⟩] :=
  heap_invariant_after_pushes 1 3
    [⟨0, ((1 : ℚ) : W), 0, true⟩, ⟨0, ((0 : ℚ) : W), 1, true⟩, ⟨0, ((2 : ℚ) : W), 2, true⟩]
    [⟨2, ((2 : ℚ) : W), true⟩, ⟨0, ((1 : ℚ) : W), true⟩, ⟨1, ((0 : ℚ) : W), true⟩]
    (by decide)

/-- Row read after overwriting the same row. -/
theorem rowAt_set_eq (h : Heap) (i : Nat) (r : List Slot) (hi : i < h.length) :
    (h.set i r).getD i [] = r := by
  simp [List.getD, List.getElem?_set_self hi]

/-- Row read after overwriting a different row. -/
theorem rowAt_set_ne (h : Heap) (i j : Nat) (r : List Slot) (hne : i ≠ j) :
    (h.set i r).getD j [] = h.getD j [] := by
  simp [List.getD, List.getElem?_set_ne hne]

/-- Reading the slot whose flag `clearFlag` clears gives the old slot with
the flag set to false (also at out-of-range positions, where both sides are
the sentinel slot). -/
theorem readSlot_clearFlag_self (g : Heap) (i j : Nat) :
    readSlot (clearFlag g i j) (i, j) = { readSlot g (i, j) with flag := false } := by
  have hread : readSlot g (i, j) = sAt (g.getD i []) j := rfl
  by_cases hi : i < g.length
  · have hstep : readSlot (clearFlag g i j) (i, j) =
        sAt ((g.getD i []).set j { sAt (g.getD i []) j with flag := false }) j := by
      rw [readSlot, clearFlag, rowAt_set_eq _ _ _ hi]
      rfl
    rw [hstep, hread]
    by_cases hj : j < (g.getD i []).length
    · rw [sAt_set_eq _ _ _ hj]
    · rw [List.set_eq_of_length_le (le_of_not_lt hj), sAt_oob _ _ (le_of_not_lt hj)]
      rfl
  · rw [clearFlag, List.set_eq_of_length_le (le_of_not_lt hi), hread,
      List.getD_eq_getElem?_getD, List.getElem?_eq_none (le_of_not_lt hi)]
    rfl

/-- Clearing a flag changes no slot other than the one it targets. -/
theorem readSlot_clearFlag_ne (g : Heap) (i j : Nat) (p : Nat × Nat) (hne : p ≠ (i, j)) :
    readSlot (clearFlag g i j) p = readSlot g p := by
  obtain ⟨a, b⟩ := p
  by_cases ha : a = i
  · subst ha
    have hb : b ≠ j := by
      intro hb
      exact hne (by rw [hb])
    by_cases hi : a < g.length
    · rw [readSlot, clearFlag, rowAt_set_eq _ _ _ hi]
      exact sAt_set_ne _ _ _ _ (fun he => hb he.symm)
    · rw [clearFlag, List.set_eq_of_length_le (le_of_not_lt hi)]
  · have h1 : readSlot (clearFlag g i j) (a, b) =
        ((clearFlag g i j).getD a []).getD b defaultSlot := rfl
    rw [h1, clearFlag, rowAt_set_ne _ _ _ _ (fun he => ha he.symm)]
    rfl

/-- Membership in the row-major slot listing. -/
theorem mem_slotList (nV nN i j : Nat) : (i, j) ∈ slotList nV nN ↔ i < nV ∧ j < nN := by
  simp only [slotList, List.mem_flatMap, List.mem_map, List.mem_range, Prod.mk.injEq]
  constructor
  · rintro ⟨a, ha, b, hb, hab⟩
    obtain ⟨h1, h2⟩ := hab
    subst h1
    subst h2
    exact ⟨ha, hb⟩
  · rintro ⟨hi, hj⟩
    exact ⟨i, hi, j, hj, rfl, rfl⟩

/-- The slot listing has no duplicate positions. -/
theorem slotList_nodup (nV nN : Nat) : (slotList nV nN).Nodup := by
  rw [slotList, List.nodup_flatMap]
  constructor
  · intro x _
    refine List.Nodup.map ?_ (List.nodup_range nN)
    intro a b hab
    exact (Prod.mk.injEq .. ▸ hab).2
  · refine (List.pairwise_lt_range nV).imp ?_
    intro a b hab
    intro q hq1 hq2
    obtain ⟨c, _, hc⟩ := List.mem_map.mp hq1
    obtain ⟨d, _, hd⟩ := List.mem_map.mp hq2
    have : a = b := by
      have h1 := (Prod.mk.injEq .. ▸ hc).1
      have h2 := (Prod.mk.injEq .. ▸ hd).1
      omega
    omega

/-- Each valid slot contributes exactly its two symmetric attempts, under a
single shared draw, to the attempt trace. -/
theorem candAttemptsAux_mem (G : Heap) :
    ∀ (ps : List (Nat × Nat)) (rng : RngState) (p : Nat × Nat), p ∈ ps →
      0 ≤ (readSlot G p).index →
      ∃ d : W,
        (⟨p.1, d, (readSlot G p).index, (readSlot G p).flag⟩ : PushOp) ∈
          (candAttemptsAux G ps rng).1 ∧
        (⟨(readSlot G p).index.toNat, d, (p.1 : Int), (readSlot G p).flag⟩ : PushOp) ∈
          (candAttemptsAux G ps rng).1 := by
  intro ps
  induction ps with
  | nil =>
    intro rng p hp
    exact absurd hp (by simp)
  | cons p0 ps ih =>
    intro rng p hp hge
    by_cases hneg : (readSlot G p0).index < 0
    · have hstep : candAttemptsAux G (p0 :: ps) rng = candAttemptsAux G ps rng := by
        simp only [candAttemptsAux, if_pos hneg]
      rcases List.mem_cons.mp hp with hp0 | hps
      · subst hp0
        omega
      · rw [hstep]
        exact ih rng p hps hge
    · have hstep : (candAttemptsAux G (p0 :: ps) rng).1 =
          attemptsFor p0 (readSlot G p0) (((tau_rand rng).1 : ℚ) : W) ++
            (candAttemptsAux G ps (tau_rand rng).2).1 := by
        simp only [candAttemptsAux, if_neg hneg]
      rcases List.mem_cons.mp hp with hp0 | hps
      · subst hp0
        refine ⟨(((tau_rand rng).1 : ℚ) : W), ?_, ?_⟩
        · rw [hstep]
          exact List.mem_append_left _ (by simp [attemptsFor])
        · rw [hstep]
          exact List.mem_append_left _ (by simp [attemptsFor])
      · obtain ⟨d, hd1, hd2⟩ := ih (tau_rand rng).2 p hps hge
        refine ⟨d, ?_, ?_⟩
        · rw [hstep]; exact List.mem_append_right _ hd1
        · rw [hstep]; exact List.mem_append_right _ hd2

/-- The attempt trace holds exactly two pushes per valid slot. -/
theorem candAttemptsAux_length (G : Heap) :
    ∀ (ps : List (Nat × Nat)) (rng : RngState),
      (candAttemptsAux G ps rng).1.length =
        2 * (ps.filter (fun p => 0 ≤ (readSlot G p).index)).length := by
  intro ps
  induction ps with
  | nil => intro rng; rfl
  | cons p0 ps ih =>
    intro rng
    by_cases hneg : (readSlot G p0).index < 0
    · have hstep : candAttemptsAux G (p0 :: ps) rng = candAttemptsAux G ps rng := by
        simp only [candAttemptsAux, if_pos hneg]
      rw [hstep, List.filter_cons_of_neg (by simp; omega)]
      exact ih rng
    · have hstep : (candAttemptsAux G (p0 :: ps) rng).1 =
          attemptsFor p0 (readSlot G p0) (((tau_rand rng).1 : ℚ) : W) ++
            (candAttemptsAux G ps (tau_rand rng).2).1 := by
        simp only [candAttemptsAux, if_neg hneg]
      rw [hstep, List.filter_cons_of_pos (by simp; omega), List.length_append,
        List.length_cons, ih (tau_rand rng).2]
      simp [attemptsFor]
      omega

/-- Core refinement for `build_candidates`: folding the per-slot body over any
duplicate-free list of slot positions, starting from a graph that agrees with
the reference graph `G` on those positions, produces (1) the candidate heap
obtained by folding `heap_push` over the attempt trace read off `G`, (2) a
graph whose is-new flags are cleared at every processed valid position, and
(3) no change at unprocessed positions. -/
theorem bc_fold_eq (G : Heap) :
    ∀ (ps : List (Nat × Nat)), ps.Nodup →
      ∀ (c g : Heap) (rng : RngState),
        (∀ p ∈ ps, readSlot g p = readSlot G p) →
        (List.foldl (fun st p => bcSlot p st) ⟨c, g, rng⟩ ps).cand =
          foldPushes c (candAttemptsAux G ps rng).1 ∧
        (∀ p ∈ ps, 0 ≤ (readSlot G p).index →
          readSlot (List.foldl (fun st p => bcSlot p st) ⟨c, g, rng⟩ ps).graph p =
            { readSlot G p with flag := false }) ∧
        (∀ p, p ∉ ps →
          readSlot (List.foldl (fun st p => bcSlot p st) ⟨c, g, rng⟩ ps).graph p =
            readSlot g p) := by
  intro ps
  induction ps with
  | nil =>
    intro _ c g rng _
    exact ⟨rfl, by simp, fun p _ => rfl⟩
  | cons p0 ps ih =>
    intro hnd c g rng hagree
    obtain ⟨hp0, hndps⟩ := List.nodup_cons.mp hnd
    have hread : readSlot g p0 = readSlot G p0 := hagree p0 (List.mem_cons_self _ _)
    simp only [List.foldl_cons]
    by_cases hneg : (readSlot G p0).index < 0
    · have hbc : bcSlot p0 ⟨c, g, rng⟩ = ⟨c, g, rng⟩ := by
        simp only [bcSlot]
        rw [hread, if_pos hneg]
      have hca : candAttemptsAux G (p0 :: ps) rng = candAttemptsAux G ps rng := by
        simp only [candAttemptsAux, if_pos hneg]
      obtain ⟨ih1, ih2, ih3⟩ := ih hndps c g rng
        (fun p hp => hagree p (List.mem_cons_of_mem _ hp))
      rw [hbc, hca]
      refine ⟨ih1, ?_, ?_⟩
      · intro p hp hge
        rcases List.mem_cons.mp hp with hp0' | hps
        · subst hp0'
          omega
        · exact ih2 p hps hge
      · intro p hp
        exact ih3 p (fun hmem => hp (List.mem_cons_of_mem _ hmem))
    · have hbc : bcSlot p0 ⟨c, g, rng⟩ =
          ⟨foldPushes c (attemptsFor p0 (readSlot G p0) (((tau_rand rng).1 : ℚ) : W)),
            clearFlag g p0.1 p0.2, (tau_rand rng).2⟩ := by
        simp only [bcSlot]
        rw [hread, if_neg hneg]
        rfl
      have hca : (candAttemptsAux G (p0 :: ps) rng).1 =
          attemptsFor p0 (readSlot G p0) (((tau_rand rng).1 : ℚ) : W) ++
            (candAttemptsAux G ps (tau_rand rng).2).1 := by
        simp only [candAttemptsAux, if_neg hneg]
      have hagree2 : ∀ p ∈ ps, readSlot (clearFlag g p0.1 p0.2) p = readSlot G p := by
        intro p hp
        rw [readSlot_clearFlag_ne g p0.1 p0.2 p ?_]
        · exact hagree p (List.mem_cons_of_mem _ hp)
        · intro he
          rw [show (p0.1, p0.2) = p0 from rfl] at he
          exact hp0 (he ▸ hp)
      obtain ⟨ih1, ih2, ih3⟩ := ih hndps
        (foldPushes c (attemptsFor p0 (readSlot G p0) (((tau_rand rng).1 : ℚ) : W)))
        (clearFlag g p0.1 p0.2) (tau_rand rng).2 hagree2
      refine ⟨?_, ?_, ?_⟩
      · rw [hbc, hca]
        have happ : foldPushes c
            (attemptsFor p0 (readSlot G p0) (((tau_rand rng).1 : ℚ) : W) ++
              (candAttemptsAux G ps (tau_rand rng).2).1) =
            foldPushes
              (foldPushes c (attemptsFor p0 (readSlot G p0) (((tau_rand rng).1 : ℚ) : W)))
              (candAttemptsAux G ps (tau_rand rng).2).1 := by
          rw [foldPushes, foldPushes, foldPushes, applyPushes, applyPushes, applyPushes,
            List.foldl_append]
        rw [happ]
        exact ih1
      · intro p hp hge
        rcases List.mem_cons.mp hp with hp0' | hps
        · subst hp0'
          rw [hbc, ih3 p hp0]
          have hself := readSlot_clearFlag_self g p.1 p.2
          rw [show (p.1, p.2) = p from rfl] at hself
          rw [hself, hread]
        · rw [hbc]
          exact ih2 p hps hge
      · intro p hp
        rw [hbc, ih3 p (fun hmem => hp (List.mem_cons_of_mem _ hmem))]
        refine readSlot_clearFlag_ne g p0.1 p0.2 p ?_
        intro he
        rw [show (p0.1, p0.2) = p0 from rfl] at he
        rw [he] at hp
        exact hp (List.mem_cons_self _ _)

/-- C5: `build_candidates` draws one random priority per valid graph slot
`(i, j)` (with `graph.index[i][j] = nb >= 0` carrying flag `f`) and attempts
exactly the two symmetric pushes `(row i, d, nb, f)` and `(row nb, d, i, f)`
into the candidate heap, each independently subject to the push algorithm's
rejection: the produced candidate heap equals the fold of `heap_push` over
the attempt trace, the trace holds both attempts of every valid slot under a
shared draw and has exactly two entries per valid slot, and after the call
`graph.isNew[i][j]` is false for every valid slot regardless of whether
either push succeeded. -/
theorem build_candidates_spec (G : Heap) (nV nN maxC : Nat) (rng : RngState) :
    (build_candidates G nV nN maxC rng).cand =
      foldPushes (make_heap nV maxC) (candAttempts G nV nN rng).1 ∧
    (∀ i j : Nat, i < nV → j < nN → 0 ≤ (readSlot G (i, j)).index →
      readSlot (build_candidates G nV nN maxC rng).graph (i, j) =
        { readSlot G (i, j) with flag := false }) ∧
    (∀ i j : Nat, i < nV → j < nN → 0 ≤ (readSlot G (i, j)).index →
      ∃ d : W,
        (⟨i, d, (readSlot G (i, j)).index, (readSlot G (i, j)).flag⟩ : PushOp) ∈
          (candAttempts G nV nN rng).1 ∧
        (⟨(readSlot G (i, j)).index.toNat, d, (i : Int), (readSlot G (i, j)).flag⟩ : PushOp) ∈
          (candAttempts G nV nN rng).1) ∧
    (candAttempts G nV nN rng).1.length =
      2 * ((slotList nV nN).filter (fun p => 0 ≤ (readSlot G p).index)).length := by
  obtain ⟨h1, h2, _⟩ := bc_fold_eq G (slotList nV nN) (slotList_nodup nV nN)
    (make_heap nV maxC) G rng (fun p _ => rfl)
  refine ⟨h1, ?_, ?_, candAttemptsAux_length G (slotList nV nN) rng⟩
  · intro i j hi hj hge
    exact h2 (i, j) ((mem_slotList nV nN i j).mpr ⟨hi, hj⟩) hge
  · intro i j hi hj hge
    exact candAttemptsAux_mem G (slotList nV nN) rng (i, j)
      ((mem_slotList nV nN i j).mpr ⟨hi, hj⟩) hge

/-- Witness for C5 at a concrete graph: the edge `(0 -> 1)` of a two-vertex
graph has its is-new flag cleared by `build_candidates`. -/
theorem build_candidates_spec_witness :
    readSlot (build_candidates ((heapPushAt (make_heap 2 1) 0 ((5 : ℚ) : W) 1 true).2)
        2 1 2 ⟨123, 456, 789⟩).graph (0, 0) =
      { readSlot ((heapPushAt (make_heap 2 1) 0 ((5 : ℚ) : W) 1 true).2) (0, 0) with
          flag := false } :=
  (build_candidates_spec ((heapPushAt (make_heap 2 1) 0 ((5 : ℚ) : W) 1 true).2)
    2 1 2 ⟨123, 456, 789⟩).2.1 0 0 (by decide) (by decide) (by decide)
